import Mathlib

/-!
Verification of the zebra-puzzle CSP solver (`zebra_solver.py`, `constraints.py`).

Python dictionaries are modelled as association lists kept in insertion
order (`lookupA` is first-match lookup, `dinsert` updates an existing key in
place or appends a fresh one at the end, exactly as CPython dict assignment
behaves).  Python sets of strings are modelled as duplicate-free lists
(`pySet` keeps the first occurrence of each element); `set.remove` /
`set.discard` become `List.erase`.  Functions that can raise return
`Except String` (the error message) and functions that can return Python's
`None` return `Option`.
-/

namespace Zebra

/-- First-match lookup in an association list; models `d[k]` / `k in d`
for a Python dict (`none` models `KeyError` / absence). -/
def lookupA {α β : Type} [DecidableEq α] : List (α × β) → α → Option β
  | [], _ => none
  | (k, v) :: rest, k' => if k = k' then some v else lookupA rest k'

/-- Dict assignment `d[k] = v`: replace the value of an existing key in
place, or append a fresh key at the end (insertion order). -/
def dinsert {α β : Type} [DecidableEq α] (k : α) (v : β) : List (α × β) → List (α × β)
  | [] => [(k, v)]
  | (k', v') :: rest => if k' = k then (k, v) :: rest else (k', v') :: dinsert k v rest

/-- `set(l)` on a list of strings: duplicates removed, first occurrence
kept, in order. -/
def pySet : List String → List String
  | [] => []
  | v :: rest => v :: (pySet rest).filter (fun w => w ≠ v)

/-- An assignment: category name → (position → value), as in the source a
dict of dicts (partial in both layers). -/
abbrev Assignment := List (String × List (Nat × String))

/-- Domains: category name → (position → set of still-possible values). -/
abbrev Domains := List (String × List (Nat × List String))

/-- The loop `for pos, val in assignment[category].items(): if val == value:
return pos` — first position carrying `value`, in insertion order. -/
def findPos (m : List (Nat × String)) (v : String) : Option Nat :=
  match m with
  | [] => none
  | (p, w) :: rest => if w = v then some p else findPos rest v

/-- Position of `value` inside `category` of an assignment, `none` when the
category is missing or the value not yet placed (the shared lookup pattern
of every constraint in `constraints.py`). -/
def posOf (a : Assignment) (category value : String) : Option Nat :=
  match lookupA a category with
  | none => none
  | some m => findPos m value

/-! ## Constraint library (`constraints.py`) -/

/-- `same_position(category1, value1, category2, value2)`:
both values placed → equal positions, else vacuously true. -/
def same_position (category1 value1 category2 value2 : String)
    (assignment : Assignment) : Bool :=
  match posOf assignment category1 value1, posOf assignment category2 value2 with
  | some pos1, some pos2 => pos1 = pos2
  | _, _ => true

/-- `adjacent(category1, value1, category2, value2)`:
both placed → `abs(pos1 - pos2) == 1` (Python int subtraction), else true. -/
def adjacent (category1 value1 category2 value2 : String)
    (assignment : Assignment) : Bool :=
  match posOf assignment category1 value1, posOf assignment category2 value2 with
  | some pos1, some pos2 => ((pos1 : Int) - (pos2 : Int)).natAbs = 1
  | _, _ => true

/-- `left_of(category1, value1, category2, value2)`:
both placed → `pos1 < pos2`, else true. -/
def left_of (category1 value1 category2 value2 : String)
    (assignment : Assignment) : Bool :=
  match posOf assignment category1 value1, posOf assignment category2 value2 with
  | some pos1, some pos2 => pos1 < pos2
  | _, _ => true

/-- `immediately_right_of(category1, value1, category2, value2)`:
both placed → `pos1 == pos2 + 1`, else true. -/
def immediately_right_of (category1 value1 category2 value2 : String)
    (assignment : Assignment) : Bool :=
  match posOf assignment category1 value1, posOf assignment category2 value2 with
  | some pos1, some pos2 => pos1 = pos2 + 1
  | _, _ => true

/-- `at_position(category, value, position)`: the source first scans for
`value` (found → compare positions), then falls back to the tautological
check `assignment[category][position] != value or == value` when the target
position is occupied, else returns `True`. -/
def at_position (category value : String) (position : Nat)
    (assignment : Assignment) : Bool :=
  match lookupA assignment category with
  | none => true
  | some m =>
    match findPos m value with
    | some pos => pos = position
    | none =>
      match lookupA m position with
      | some w => decide (w ≠ value) || decide (w = value)
      | none => true

/-- `at_edge(category, value, edge)` — the predicate the factory returns.
Note two source peculiarities embedded faithfully: the number of positions
is recomputed as `max(assignment[category].keys()) + 1`, and the
`ValueError` for an unknown edge string is raised inside the predicate
(only reachable once the value is found in the assignment). -/
def at_edge (category value edge : String) (assignment : Assignment) :
    Except String Bool :=
  match lookupA assignment category with
  | none => Except.ok true
  | some m =>
    match findPos m value with
    | none => Except.ok true
    | some pos =>
      let num_positions := ((m.map Prod.fst).foldl max 0) + 1
      if edge = "first" then Except.ok (pos = 0)
      else if edge = "last" then Except.ok (pos = num_positions - 1)
      else if edge = "either" then Except.ok (pos = 0 || pos = num_positions - 1)
      else Except.error ("Invalid edge value: " ++ edge)

/-- The `at_edge` factory call itself: the source body merely defines the
closure and returns it — no validation of `edge` happens here, so the
factory never raises. -/
def at_edgeFactory (category value edge : String) :
    Except String (Assignment → Except String Bool) :=
  Except.ok (at_edge category value edge)

/-- `middle_position(category, value, num_positions)` — the predicate
(`middle = num_positions // 2`). -/
def middle_position (category value : String) (num_positions : Nat)
    (assignment : Assignment) : Bool :=
  match lookupA assignment category with
  | none => true
  | some m =>
    match findPos m value with
    | some pos => pos = num_positions / 2
    | none => true

/-- The `middle_position` factory: raises `ValueError` at the call itself
when `num_positions` is even, otherwise returns the predicate. -/
def middle_positionFactory (category value : String) (num_positions : Nat) :
    Except String (Assignment → Bool) :=
  if num_positions % 2 = 0 then
    Except.error "middle_position only works with odd number of positions"
  else
    Except.ok (middle_position category value num_positions)

/-- `one_of_positions(category, value, positions)`: value placed → its
position is a member of the given list, else true. -/
def one_of_positions (category value : String) (positions : List Nat)
    (assignment : Assignment) : Bool :=
  match lookupA assignment category with
  | none => true
  | some m =>
    match findPos m value with
    | some pos => pos ∈ positions
    | none => true

/-- `not_same_position(category1, value1, category2, value2)`:
both placed → distinct positions, else true. -/
def not_same_position (category1 value1 category2 value2 : String)
    (assignment : Assignment) : Bool :=
  match posOf assignment category1 value1, posOf assignment category2 value2 with
  | some pos1, some pos2 => decide (pos1 ≠ pos2)
  | _, _ => true

/-! ## Solving engine (`zebra_solver.py`) -/

/-- A `ZebraPuzzle` after `__init__` has run: position count, the category
dict (name → ordered value list) and the list of registered constraints
(`func` paired with its `description`, as stored by `add_constraint`). -/
structure ZebraPuzzle where
  num_positions : Nat
  categories : List (String × List String)
  constraints : List ((Assignment → Bool) × String)

/-- `ZebraPuzzle.__init__`: stores the fields, then validates every
category's value-list length against `num_positions`, raising `ValueError`
at the first mismatch (in category insertion order) — all before any
solving can begin. -/
def ZebraPuzzle.init (num_positions : Nat)
    (categories : List (String × List String)) : Except String ZebraPuzzle :=
  match categories.find? (fun cv => cv.2.length ≠ num_positions) with
  | some cv =>
      Except.error ("Category " ++ cv.1 ++ " has " ++ toString cv.2.length ++
        " values, expected " ++ toString num_positions)
  | none => Except.ok ⟨num_positions, categories, []⟩

/-- `self.constraints.append({'func': f, 'description': s})`. -/
def ZebraPuzzle.add_constraint (p : ZebraPuzzle) (f : Assignment → Bool)
    (description : String) : ZebraPuzzle :=
  { p with constraints := p.constraints ++ [(f, description)] }

/-- Read a single domain `domains[category][position]`; a missing key reads
as the empty set (the solver itself only ever reads keys it created). -/
def dom (d : Domains) (category : String) (position : Nat) : List String :=
  (lookupA ((lookupA d category).getD []) position).getD []

/-- Write a single domain `domains[category][position] = s`. -/
def domSet (d : Domains) (category : String) (position : Nat)
    (s : List String) : Domains :=
  dinsert category (dinsert position s ((lookupA d category).getD [])) d

/-- `domains = {cat: {pos: set(values) for pos in range(n)} for ...}` —
the initial full domains built by `solve`. -/
def initDomains (p : ZebraPuzzle) : Domains :=
  p.categories.map (fun cv =>
    (cv.1, (List.range p.num_positions).map (fun pos => (pos, pySet cv.2))))

/-- `_is_complete`: every declared category present with exactly
`num_positions` entries. -/
def isComplete (p : ZebraPuzzle) (a : Assignment) : Bool :=
  p.categories.all (fun cv =>
    match lookupA a cv.1 with
    | none => false
    | some m => m.length = p.num_positions)

/-- `_is_consistent`: every registered constraint function returns true on
the (partial) assignment. -/
def isConsistent (p : ZebraPuzzle) (a : Assignment) : Bool :=
  p.constraints.all (fun c => c.1 a)

/-- `category in assignment and position in assignment[category]` — the
"already assigned" test of `_select_unassigned_variable`. -/
def isAssigned (a : Assignment) (category : String) (position : Nat) : Bool :=
  match lookupA a category with
  | none => false
  | some m => (lookupA m position).isSome

/-- Inner loop of `_select_unassigned_variable` over `range(num_positions)`
for one category, threading `(min_remaining, best_var)`; `best = none`
models `min_remaining = inf, best_var = None`. -/
def selectPos (a : Assignment) (d : Domains) (category : String) :
    List Nat → Option (Nat × String × Nat) → Option (Nat × String × Nat)
  | [], best => best
  | position :: rest, best =>
    if isAssigned a category position then selectPos a d category rest best
    else
      let remaining := (dom d category position).length
      match best with
      | none => selectPos a d category rest (some (remaining, category, position))
      | some (m, c, i) =>
        if remaining < m then
          selectPos a d category rest (some (remaining, category, position))
        else selectPos a d category rest (some (m, c, i))

/-- Outer loop of `_select_unassigned_variable` over `self.categories`. -/
def selectCats (p : ZebraPuzzle) (a : Assignment) (d : Domains) :
    List (String × List String) → Option (Nat × String × Nat) →
    Option (Nat × String × Nat)
  | [], best => best
  | cv :: rest, best =>
    selectCats p a d rest (selectPos a d cv.1 (List.range p.num_positions) best)

/-- `_select_unassigned_variable` (MRV, first minimum wins; iteration order:
declared categories, then positions ascending).  `none` models the Python
`best_var = None` fall-through. -/
def selectUnassigned (p : ZebraPuzzle) (a : Assignment) (d : Domains) :
    Option (String × Nat) :=
  (selectCats p a d p.categories none).map (fun b => (b.2.1, b.2.2))

/-- `new_assignment[category] = {}` if absent, then
`new_assignment[category][position] = value` (on a deep copy, modelled by
pure functional update). -/
def assignSet (a : Assignment) (category : String) (position : Nat)
    (value : String) : Assignment :=
  dinsert category (dinsert position value ((lookupA a category).getD [])) a

/-- The `discard` loop of `_update_domains`: remove `value` from every
other position of the category (`discard` = erase when present). -/
def discardLoop (category value : String) (position : Nat) :
    List Nat → Domains → Domains
  | [], d => d
  | pos :: rest, d =>
    let d' := if pos = position then d
      else domSet d category pos ((dom d category pos).erase value)
    discardLoop category value position rest d'

/-- `_update_domains`: pin the assigned `(category, position)` to `{value}`,
then discard `value` from the category's other positions. -/
def updateDomains (p : ZebraPuzzle) (d : Domains) (category : String)
    (position : Nat) (value : String) : Domains :=
  discardLoop category value position (List.range p.num_positions)
    (domSet d category position [value])

/-! ### Constraint propagation (`_propagate_constraints`) -/

/-- The domain-wipeout scan at the top of each propagation pass. -/
def hasEmpty (d : Domains) : Bool :=
  d.any (fun cv => cv.2.any (fun pv => pv.2.isEmpty))

/-- Innermost loop of singleton elimination: remove `value` from every
`pos != position` whose domain still holds it, setting `changed`. -/
def removeLoop (category value : String) (position : Nat) :
    List Nat → Domains × Bool → Domains × Bool
  | [], acc => acc
  | pos :: rest, (d, ch) =>
    if pos ≠ position ∧ value ∈ dom d category pos then
      removeLoop category value position rest
        (domSet d category pos ((dom d category pos).erase value), true)
    else removeLoop category value position rest (d, ch)

/-- Singleton elimination at one `(category, position)`: when the live
domain is a singleton, push its value out of the other positions. -/
def rule1One (p : ZebraPuzzle) (category : String) (position : Nat)
    (acc : Domains × Bool) : Domains × Bool :=
  match dom acc.1 category position with
  | [value] => removeLoop category value position (List.range p.num_positions) acc
  | _ => acc

/-- Singleton elimination over the positions of one category. -/
def rule1Positions (p : ZebraPuzzle) (category : String) :
    List Nat → Domains × Bool → Domains × Bool
  | [], acc => acc
  | position :: rest, acc =>
    rule1Positions p category rest (rule1One p category position acc)

/-- Singleton elimination over all categories (the key structure of the
domains dict never changes, so the iteration lists are taken from the pass
input, while the domain contents are read live, as in the source). -/
def rule1Cats (p : ZebraPuzzle) :
    List (String × List Nat) → Domains × Bool → Domains × Bool
  | [], acc => acc
  | kv :: rest, acc => rule1Cats p rest (rule1Positions p kv.1 kv.2 acc)

/-- Rule 1 of `_propagate_constraints` (singleton elimination). -/
def rule1 (p : ZebraPuzzle) (d0 : Domains) : Domains × Bool :=
  rule1Cats p (d0.map (fun cv => (cv.1, cv.2.map Prod.fst))) (d0, false)

/-- Unique-position elimination for the values of one category: a value
admitted by no position aborts propagation (`return None`); a value
admitted by exactly one position pins that domain to `{value}` when it
still holds competitors. -/
def rule2Vals (p : ZebraPuzzle) (category : String) :
    List String → Domains × Bool → Option (Domains × Bool)
  | [], acc => some acc
  | value :: rest, (d, ch) =>
    match (List.range p.num_positions).filter
        (fun pos => decide (value ∈ dom d category pos)) with
    | [] => none
    | [pos] =>
      if 1 < (dom d category pos).length then
        rule2Vals p category rest (domSet d category pos [value], true)
      else rule2Vals p category rest (d, ch)
    | _ => rule2Vals p category rest (d, ch)

/-- Rule 2 over all categories; the value list of each category is read
from `self.categories`. -/
def rule2Cats (p : ZebraPuzzle) :
    List String → Domains × Bool → Option (Domains × Bool)
  | [], acc => some acc
  | category :: rest, acc =>
    match rule2Vals p category ((lookupA p.categories category).getD []) acc with
    | none => none
    | some acc' => rule2Cats p rest acc'

/-- One full pass of the `while changed` body: wipeout check, rule 1,
rule 2; returns the updated domains and whether anything changed. -/
def passStep (p : ZebraPuzzle) (d : Domains) : Option (Domains × Bool) :=
  if hasEmpty d then none
  else
    let r1 := rule1 p d
    match rule2Cats p (r1.1.map Prod.fst) (r1.1, false) with
    | none => none
    | some r2 => some (r2.1, r1.2 || r2.2)

/-- The `while changed` loop, with explicit fuel (each changed pass
strictly shrinks the total domain size, so `domSize d + 1` passes always
suffice; an exhausted fuel conservatively reports unsatisfiable). -/
def propLoop (p : ZebraPuzzle) : Nat → Domains → Option Domains
  | 0, _ => none
  | fuel + 1, d =>
    match passStep p d with
    | none => none
    | some (d', false) => some d'
    | some (d', true) => propLoop p fuel d'

/-- Total number of values across all domains — the termination measure of
the propagation loop. -/
def domSize (d : Domains) : Nat :=
  (d.map (fun cv => (cv.2.map (fun pv => pv.2.length)).sum)).sum

/-- `_propagate_constraints` (its `assignment` parameter is never used by
the source body and is omitted): runs passes to fixpoint, `none` being the
unsatisfiable sentinel. -/
def propagate (p : ZebraPuzzle) (d : Domains) : Option Domains :=
  propLoop p (domSize d + 1) d

/-! ### Backtracking search -/

/-- The `for value in list(domains[category][position])` loop of
`_backtrack`, with the recursive search call passed in as `bt`: the first
recursive success wins, inconsistent or wiped-out branches fall through to
the next candidate value. -/
def tryValues (p : ZebraPuzzle) (bt : Assignment → Domains → Option Assignment) :
    List String → Assignment → Domains → String → Nat → Option Assignment
  | [], _, _, _, _ => none
  | value :: rest, a, d, category, position =>
    let a' := assignSet a category position value
    if isConsistent p a' then
      match propagate p (updateDomains p d category position value) with
      | some d' =>
        match bt a' d' with
        | some result => some result
        | none => tryValues p bt rest a d category position
      | none => tryValues p bt rest a d category position
    else tryValues p bt rest a d category position

/-- `_backtrack`: return the assignment when complete; otherwise pick the
MRV variable and try its candidate values.  The source would raise a
`TypeError` when `_select_unassigned_variable` falls through with `None`
(possible only for `num_positions = 0`); that stuck state is modelled as
`none`.  Fuel decreases at each level; `solve` supplies enough for the
search depth, which is bounded by the number of variables. -/
def backtrack (p : ZebraPuzzle) : Nat → Assignment → Domains → Option Assignment
  | 0, _, _ => none
  | fuel + 1, a, d =>
    if isComplete p a then some a
    else
      match selectUnassigned p a d with
      | none => none
      | some (category, position) =>
        tryValues p (fun a2 d2 => backtrack p fuel a2 d2)
          (dom d category position) a d category position

/-- `solve`: build the initial domains, propagate (failure → `None`), then
backtrack from the empty assignment.  The fuel bounds the search depth,
which grows by one committed variable per level and is therefore at most
`|categories| * num_positions`. -/
def solve (p : ZebraPuzzle) : Option Assignment :=
  match propagate p (initDomains p) with
  | none => none
  | some d => backtrack p (p.categories.length * p.num_positions + 1) [] d

/-! ### Concrete puzzles used to instantiate the theorems -/

/-- A one-house, one-category puzzle. -/
def onePuzzle : ZebraPuzzle := ⟨1, [("color", ["red"])], []⟩

/-- The puzzle state a caller would reach by bypassing validation: one
position but an empty value list, so the initial domains contain an empty
domain. -/
def wipePuzzle : ZebraPuzzle := ⟨1, [("color", [])], []⟩

/-- The 3-house example puzzle of `example_puzzle.py`. -/
def examplePuzzle : ZebraPuzzle :=
  ⟨3, [("nationality", ["English", "Spanish", "Japanese"]),
       ("color", ["red", "green", "ivory"]),
       ("pet", ["dog", "snail", "fox"]),
       ("drink", ["coffee", "tea", "water"])],
   [(same_position "nationality" "English" "color" "red", "English red"),
    (same_position "nationality" "Spanish" "pet" "dog", "Spanish dog"),
    (same_position "drink" "coffee" "color" "green", "coffee green"),
    (immediately_right_of "color" "green" "color" "red", "green right of red"),
    (adjacent "pet" "snail" "drink" "tea", "snail next to tea"),
    (adjacent "nationality" "Japanese" "pet" "snail", "Japanese next to snail")]⟩

/-- A puzzle with no categories but a registered constraint that always
rejects — `solve` returns the empty assignment without ever consulting it. -/
def noCategoriesPuzzle : ZebraPuzzle := ⟨1, [], [(fun _ => false, "always false")]⟩

/-- `num_positions = 0` with one declared category: the variable-selection
scan ranges over no positions and falls through with `None`. -/
def zeroPuzzle : ZebraPuzzle := ⟨0, [("color", [])], []⟩

/-! ### Invariants used to verify the search -/

/-- Pointwise domain shrinkage: every `(category, position)` domain of `e`
is a sublist of the corresponding domain of `d` (domains only ever lose
values during `_update_domains` and propagation). -/
def Shrinks (e d : Domains) : Prop :=
  ∀ category position, (dom e category position).Sublist (dom d category position)

/-- Assignment-side invariant of one category with value list `vals`: the
entry keys are distinct positions below `num_positions` and the entry
values are distinct members of `vals`. -/
def ACatInv (p : ZebraPuzzle) (m : List (Nat × String)) (vals : List String) : Prop :=
  (m.map Prod.fst).Nodup ∧
  (∀ k ∈ m.map Prod.fst, k < p.num_positions) ∧
  (m.map Prod.snd).Nodup ∧
  (∀ v ∈ m.map Prod.snd, v ∈ vals)

/-- Assignment-side invariant over all declared categories. -/
def AInv (p : ZebraPuzzle) (a : Assignment) : Prop :=
  ∀ cv ∈ p.categories, ACatInv p ((lookupA a cv.1).getD []) cv.2

/-- Full search invariant: the assignment-side invariant plus, at every
unassigned position of a declared category, a domain free of the values
already committed in that category. -/
def Inv (p : ZebraPuzzle) (a : Assignment) (d : Domains) : Prop :=
  ∀ cv ∈ p.categories,
    ACatInv p ((lookupA a cv.1).getD []) cv.2 ∧
    ∀ pos, pos < p.num_positions →
      lookupA ((lookupA a cv.1).getD []) pos = none →
      ∀ v ∈ dom d cv.1 pos, v ∉ ((lookupA a cv.1).getD []).map Prod.snd

/-- Every domain of a declared category stays inside that category's
declared value list. -/
def Dsub (p : ZebraPuzzle) (d : Domains) : Prop :=
  ∀ cv ∈ p.categories, ∀ pos, (dom d cv.1 pos).Sublist cv.2

/-! ## Lemmas about the dictionary model -/

theorem lookupA_dinsert_self {α β : Type} [DecidableEq α] (k : α) (v : β)
    (l : List (α × β)) : lookupA (dinsert k v l) k = some v := by
  induction l with
  | nil => simp [dinsert, lookupA]
  | cons hd tl ih =>
    by_cases h : hd.1 = k
    · simp [dinsert, h, lookupA]
    · simpa [dinsert, h, lookupA] using ih

theorem lookupA_dinsert_ne {α β : Type} [DecidableEq α] {k k' : α} (v : β)
    (l : List (α × β)) (h : k ≠ k') :
    lookupA (dinsert k v l) k' = lookupA l k' := by
  induction l with
  | nil => simp [dinsert, lookupA, h]
  | cons hd tl ih =>
    by_cases hh : hd.1 = k
    · simp [dinsert, hh, lookupA, h]
    · simp [dinsert, hh, lookupA]
      by_cases hk : hd.1 = k'
      · simp [hk]
      · simp [hk, ih]

theorem lookupA_eq_none_iff {α β : Type} [DecidableEq α] (l : List (α × β))
    (k : α) : lookupA l k = none ↔ k ∉ l.map Prod.fst := by
  induction l with
  | nil => simp [lookupA]
  | cons hd tl ih =>
    by_cases h : hd.1 = k
    · simp [lookupA, h]
    · have h' : k ≠ hd.1 := fun he => h he.symm
      simp [lookupA, h, h', ih]

theorem dinsert_of_lookup_none {α β : Type} [DecidableEq α] {l : List (α × β)}
    {k : α} (v : β) (h : lookupA l k = none) : dinsert k v l = l ++ [(k, v)] := by
  induction l with
  | nil => simp [dinsert]
  | cons hd tl ih =>
    simp only [lookupA] at h
    by_cases hh : hd.1 = k
    · simp [hh] at h
    · simp [dinsert, hh] at h ⊢
      exact ih h

theorem lookupA_append_left {α β : Type} [DecidableEq α] {l : List (α × β)}
    (t : List (α × β)) {k : α} {v : β} (h : lookupA l k = some v) :
    lookupA (l ++ t) k = some v := by
  induction l with
  | nil => simp [lookupA] at h
  | cons hd tl ih =>
    by_cases hh : hd.1 = k <;> simp_all [lookupA]

theorem lookupA_append_none {α β : Type} [DecidableEq α] {l t : List (α × β)}
    {k : α} (h : lookupA (l ++ t) k = none) : lookupA l k = none := by
  induction l with
  | nil => simp [lookupA]
  | cons hd tl ih =>
    by_cases hh : hd.1 = k <;> simp_all [lookupA]

theorem lookupA_mem_of_some {α β : Type} [DecidableEq α] {l : List (α × β)}
    {k : α} {v : β} (h : lookupA l k = some v) : (k, v) ∈ l := by
  induction l with
  | nil => simp [lookupA] at h
  | cons hd tl ih =>
    by_cases hh : hd.1 = k
    · simp [lookupA, hh] at h
      have hhd : hd = (k, v) := by
        cases hd
        simp_all
      rw [hhd]
      exact List.mem_cons_self _ _
    · simp [lookupA, hh] at h
      exact List.mem_cons_of_mem _ (ih h)

/-- In a dict (no duplicate keys), membership pins down the lookup. -/
theorem lookupA_of_mem_nodup {α β : Type} [DecidableEq α] {l : List (α × β)}
    (hnd : (l.map Prod.fst).Nodup) {k : α} {v : β} (h : (k, v) ∈ l) :
    lookupA l k = some v := by
  induction l with
  | nil => simp at h
  | cons hd tl ih =>
    simp only [List.map_cons, List.nodup_cons] at hnd
    rcases List.mem_cons.mp h with h1 | h1
    · rw [← h1]
      simp [lookupA]
    · have hk : hd.1 ≠ k := by
        intro he
        exact hnd.1 (he ▸ (List.mem_map.mpr ⟨(k, v), h1, rfl⟩))
      simp [lookupA, hk]
      exact ih hnd.2 h1

theorem findPos_eq_none_iff (m : List (Nat × String)) (v : String) :
    findPos m v = none ↔ v ∉ m.map Prod.snd := by
  induction m with
  | nil => simp [findPos]
  | cons hd tl ih =>
    by_cases h : hd.2 = v
    · simp [findPos, h]
    · have h' : v ≠ hd.2 := fun he => h he.symm
      simp [findPos, h, h', ih]

theorem findPos_mem_of_some {m : List (Nat × String)} {v : String} {i : Nat}
    (h : findPos m v = some i) : (i, v) ∈ m := by
  induction m with
  | nil => simp [findPos] at h
  | cons hd tl ih =>
    by_cases hh : hd.2 = v
    · simp [findPos, hh] at h
      have hhd : hd = (i, v) := by
        cases hd
        simp_all
      rw [hhd]
      exact List.mem_cons_self _ _
    · simp [findPos, hh] at h
      exact List.mem_cons_of_mem _ (ih h)

/-! ## Claim C3: open-world evaluation of every constraint factory -/

/-- C3: every predicate produced by the nine constraint factories returns
true on any partial assignment in which a referenced value is absent
(category missing or value not placed at any position of that category,
i.e. `posOf … = none`); for `at_edge` the predicate returns `ok true`
without even inspecting the edge designator. -/
theorem claim_C3_open_world (a : Assignment) :
    (∀ c1 v1 c2 v2, posOf a c1 v1 = none ∨ posOf a c2 v2 = none →
      same_position c1 v1 c2 v2 a = true ∧
      adjacent c1 v1 c2 v2 a = true ∧
      left_of c1 v1 c2 v2 a = true ∧
      immediately_right_of c1 v1 c2 v2 a = true ∧
      not_same_position c1 v1 c2 v2 a = true) ∧
    (∀ c v pos, posOf a c v = none → at_position c v pos a = true) ∧
    (∀ c v e, posOf a c v = none → at_edge c v e a = Except.ok true) ∧
    (∀ c v n, posOf a c v = none → middle_position c v n a = true) ∧
    (∀ c v ps, posOf a c v = none → one_of_positions c v ps a = true) := by
  refine ⟨fun c1 v1 c2 v2 h => ?_, fun c v pos h => ?_, fun c v e h => ?_,
    fun c v n h => ?_, fun c v ps h => ?_⟩
  · rcases h with h | h
    · cases h2 : posOf a c2 v2 <;>
        simp [same_position, adjacent, left_of, immediately_right_of,
          not_same_position, h, h2]
    · cases h1 : posOf a c1 v1 <;>
        simp [same_position, adjacent, left_of, immediately_right_of,
          not_same_position, h, h1]
  · cases hc : lookupA a c with
    | none => simp [at_position, hc]
    | some m =>
      simp only [posOf, hc] at h
      cases hp : lookupA m pos with
      | none => simp [at_position, hc, h, hp]
      | some w => by_cases hw : w = v <;> simp [at_position, hc, h, hp, hw]
  · cases hc : lookupA a c with
    | none => simp [at_edge, hc]
    | some m =>
      simp only [posOf, hc] at h
      simp [at_edge, hc, h]
  · cases hc : lookupA a c with
    | none => simp [middle_position, hc]
    | some m =>
      simp only [posOf, hc] at h
      simp [middle_position, hc, h]
  · cases hc : lookupA a c with
    | none => simp [one_of_positions, hc]
    | some m =>
      simp only [posOf, hc] at h
      simp [one_of_positions, hc, h]

/-- Witness for C3 at a concrete partial assignment where the value
`("pet", "dog")` is absent. -/
theorem claim_C3_open_world_witness :
    same_position "pet" "dog" "color" "red" [("color", [(0, "red")])] = true ∧
    at_position "pet" "dog" 0 [("color", [(0, "red")])] = true ∧
    at_edge "pet" "dog" "last" [("color", [(0, "red")])] = Except.ok true ∧
    middle_position "pet" "dog" 3 [("color", [(0, "red")])] = true ∧
    one_of_positions "pet" "dog" [0, 1] [("color", [(0, "red")])] = true :=
  ⟨((claim_C3_open_world _).1 "pet" "dog" "color" "red" (Or.inl (by decide))).1,
   (claim_C3_open_world _).2.1 "pet" "dog" 0 (by decide),
   (claim_C3_open_world _).2.2.1 "pet" "dog" "last" (by decide),
   (claim_C3_open_world _).2.2.2.1 "pet" "dog" 3 (by decide),
   (claim_C3_open_world _).2.2.2.2 "pet" "dog" [0, 1] (by decide)⟩

/-! ## Claim C4: construction-time validation of value-list lengths -/

/-- C4: `ZebraPuzzle.__init__` raises a `ValueError` exactly when some
declared category has a value list whose length differs from
`num_positions`; the check runs at construction, before any solving (the
constructor never invokes `solve`). -/
theorem claim_C4_init_validates (num_positions : Nat)
    (categories : List (String × List String)) :
    (∃ e, ZebraPuzzle.init num_positions categories = Except.error e) ↔
      ∃ cv ∈ categories, cv.2.length ≠ num_positions := by
  unfold ZebraPuzzle.init
  cases hf : categories.find? (fun cv => cv.2.length ≠ num_positions) with
  | none =>
    simp only [reduceCtorEq, exists_false, false_iff, not_exists]
    intro cv hcv
    have := List.find?_eq_none.mp hf cv hcv.1
    simp [hcv.2] at this
  | some cv =>
    constructor
    · intro _
      refine ⟨cv, List.mem_of_find?_eq_some hf, ?_⟩
      have := List.find?_some hf
      simpa using this
    · intro _
      exact ⟨_, rfl⟩

/-! ## Claim C5: when the bad-edge ValueError is raised -/

/-- C5 is false on the code: the `at_edge` factory body only builds and
returns the closure, so calling the factory with an unrecognized edge
designator does NOT raise; the `ValueError` fires later, when the returned
predicate is applied to an assignment that places the value. -/
theorem claim_C5_cex :
    at_edgeFactory "color" "yellow" "bogus" =
      Except.ok (at_edge "color" "yellow" "bogus") ∧
    at_edge "color" "yellow" "bogus" [("color", [(0, "yellow")])] =
      Except.error "Invalid edge value: bogus" := by
  constructor
  · rfl
  · rfl

/-- C5 amended: calling `at_edge` with an edge designator other than
'first', 'last' or 'either' returns a predicate without raising; the
configuration `ValueError` is raised only when that predicate is applied
to an assignment in which the value is placed at some position. -/
theorem claim_C5_amended (category value edge : String)
    (h1 : edge ≠ "first") (h2 : edge ≠ "last") (h3 : edge ≠ "either")
    (a : Assignment) (pos : Nat) (hpos : posOf a category value = some pos) :
    at_edgeFactory category value edge = Except.ok (at_edge category value edge) ∧
    at_edge category value edge a = Except.error ("Invalid edge value: " ++ edge) := by
  refine ⟨rfl, ?_⟩
  cases hc : lookupA a category with
  | none => simp [posOf, hc] at hpos
  | some m =>
    simp only [posOf, hc] at hpos
    simp [at_edge, hc, hpos, h1, h2, h3]

/-- Witness for the amended C5. -/
theorem claim_C5_amended_witness :
    at_edgeFactory "color" "red" "bogus" = Except.ok (at_edge "color" "red" "bogus") ∧
    at_edge "color" "red" "bogus" [("color", [(0, "red")])] =
      Except.error ("Invalid edge value: " ++ "bogus") :=
  claim_C5_amended "color" "red" "bogus" (by decide) (by decide) (by decide)
    [("color", [(0, "red")])] 0 (by decide)

/-! ## Claim C6: the edge actually used by at_edge -/

/-- C6 is false on the code: the predicate recomputes the position count as
`max(assignment[category].keys()) + 1`, so in a 3-position puzzle whose
category has so far only position 1 assigned, `at_edge(..., 'last')`
accepts position 1 even though the last position of the puzzle is 2. -/
theorem claim_C6_cex :
    at_edge "color" "red" "last" [("color", [(1, "red")])] = Except.ok true ∧
    (1 : Nat) ≠ 3 - 1 := by
  constructor
  · rfl
  · decide

/-- C6 amended: for a predicate built by `at_edge` and an assignment
placing the value at `pos`, the result is `ok true` iff `pos` is at the
requested edge of `[0, Na)` where `Na = max(assigned positions of that
category) + 1` is recomputed from the assignment — not the puzzle's
`num_positions`. -/
theorem claim_C6_amended (category value edge : String) (a : Assignment)
    (m : List (Nat × String)) (pos : Nat)
    (hm : lookupA a category = some m) (hpos : findPos m value = some pos)
    (hedge : edge = "first" ∨ edge = "last" ∨ edge = "either") :
    at_edge category value edge a = Except.ok true ↔
      ((edge = "first" ∧ pos = 0) ∨
       (edge = "last" ∧ pos = ((m.map Prod.fst).foldl max 0 + 1) - 1) ∨
       (edge = "either" ∧
         (pos = 0 ∨ pos = ((m.map Prod.fst).foldl max 0 + 1) - 1))) := by
  rcases hedge with he | he | he <;> subst he <;>
    simp [at_edge, hm, hpos]

/-- Witness for the amended C6: with only position 1 assigned, Na = 2 and
'last' accepts position 1. -/
theorem claim_C6_amended_witness :
    at_edge "color" "red" "last" [("color", [(1, "red")])] = Except.ok true :=
  (claim_C6_amended "color" "red" "last" [("color", [(1, "red")])]
    [(1, "red")] 1 (by decide) (by decide) (Or.inr (Or.inl rfl))).mpr
    (Or.inr (Or.inl ⟨rfl, by decide⟩))

/-! ## Claim C8: determinism of solve -/

/-- C8: `solve` is a pure function of the puzzle definition; two puzzles
with the same position count, category dict and constraint list produce
identical results (the model fixes the same deterministic iteration
orders — declared category order, ascending positions, domain-set order —
that the source relies on). -/
theorem claim_C8_deterministic (p q : ZebraPuzzle)
    (h1 : p.num_positions = q.num_positions) (h2 : p.categories = q.categories)
    (h3 : p.constraints = q.constraints) : solve p = solve q := by
  obtain ⟨n, cats, cons⟩ := p
  obtain ⟨n', cats', cons'⟩ := q
  simp only at h1 h2 h3
  subst h1
  subst h2
  subst h3
  rfl

/-- Witness for C8 on the 3-house example puzzle. -/
theorem claim_C8_deterministic_witness : solve examplePuzzle = solve examplePuzzle :=
  claim_C8_deterministic examplePuzzle examplePuzzle rfl rfl rfl

/-! ## Propagation reaches a fixpoint: the `changed = False` pass leaves
the domains untouched (every mutation in the source sets `changed`). -/

theorem removeLoop_false (category value : String) (position : Nat) :
    ∀ (l : List Nat) (d : Domains) (ch : Bool) (d' : Domains),
    removeLoop category value position l (d, ch) = (d', false) →
    d' = d ∧ ch = false := by
  intro l
  induction l with
  | nil =>
    intro d ch d' h
    simp [removeLoop] at h
    exact ⟨h.1.symm, h.2⟩
  | cons pos rest ih =>
    intro d ch d' h
    simp only [removeLoop] at h
    by_cases hc : pos ≠ position ∧ value ∈ dom d category pos
    · rw [if_pos hc] at h
      rcases ih _ _ _ h with ⟨_, h2⟩
      cases h2
    · rw [if_neg hc] at h
      exact ih _ _ _ h

theorem rule1One_false (p : ZebraPuzzle) (category : String) (position : Nat)
    (d : Domains) (ch : Bool) (d' : Domains)
    (h : rule1One p category position (d, ch) = (d', false)) :
    d' = d ∧ ch = false := by
  unfold rule1One at h
  rcases hd : dom d category position with _ | ⟨v, rest⟩
  · rw [show dom (d, ch).1 category position = [] from hd] at h
    simp at h
    exact ⟨h.1.symm, h.2⟩
  · rcases rest with _ | ⟨w, t⟩
    · rw [show dom (d, ch).1 category position = [v] from hd] at h
      exact removeLoop_false _ _ _ _ _ _ _ h
    · rw [show dom (d, ch).1 category position = v :: w :: t from hd] at h
      simp at h
      exact ⟨h.1.symm, h.2⟩

theorem rule1Positions_false (p : ZebraPuzzle) (category : String) :
    ∀ (l : List Nat) (d : Domains) (ch : Bool) (d' : Domains),
    rule1Positions p category l (d, ch) = (d', false) →
    d' = d ∧ ch = false := by
  intro l
  induction l with
  | nil =>
    intro d ch d' h
    simp [rule1Positions] at h
    exact ⟨h.1.symm, h.2⟩
  | cons position rest ih =>
    intro d ch d' h
    simp only [rule1Positions] at h
    rcases hmid : rule1One p category position (d, ch) with ⟨d2, ch2⟩
    rw [hmid] at h
    rcases ih _ _ _ h with ⟨he, hc2⟩
    subst hc2
    rcases rule1One_false p category position d ch d2 hmid with ⟨he2, hc⟩
    exact ⟨he.trans he2, hc⟩

theorem rule1Cats_false (p : ZebraPuzzle) :
    ∀ (l : List (String × List Nat)) (d : Domains) (ch : Bool) (d' : Domains),
    rule1Cats p l (d, ch) = (d', false) → d' = d ∧ ch = false := by
  intro l
  induction l with
  | nil =>
    intro d ch d' h
    simp [rule1Cats] at h
    exact ⟨h.1.symm, h.2⟩
  | cons kv rest ih =>
    intro d ch d' h
    simp only [rule1Cats] at h
    rcases hmid : rule1Positions p kv.1 kv.2 (d, ch) with ⟨d2, ch2⟩
    rw [hmid] at h
    rcases ih _ _ _ h with ⟨he, hc2⟩
    subst hc2
    rcases rule1Positions_false p kv.1 kv.2 d ch d2 hmid with ⟨he2, hc⟩
    exact ⟨he.trans he2, hc⟩

theorem rule1_false (p : ZebraPuzzle) (d0 d' : Domains)
    (h : rule1 p d0 = (d', false)) : d' = d0 :=
  (rule1Cats_false p _ d0 false d' h).1

theorem rule2Vals_false (p : ZebraPuzzle) (category : String) :
    ∀ (l : List String) (d : Domains) (ch : Bool) (d' : Domains),
    rule2Vals p category l (d, ch) = some (d', false) →
    d' = d ∧ ch = false := by
  intro l
  induction l with
  | nil =>
    intro d ch d' h
    simp [rule2Vals] at h
    exact ⟨h.1.symm, h.2⟩
  | cons value rest ih =>
    intro d ch d' h
    simp only [rule2Vals] at h
    rcases hf : (List.range p.num_positions).filter
        (fun pos => decide (value ∈ dom d category pos)) with _ | ⟨pos, ptail⟩
    · rw [hf] at h
      exact absurd ((rfl : (none : Option (Domains × Bool)) = none).symm.trans h)
        (by simp)
    · rcases ptail with _ | ⟨q, qt⟩
      · rw [hf] at h
        have h' : (if 1 < (dom d category pos).length then
            rule2Vals p category rest (domSet d category pos [value], true)
          else rule2Vals p category rest (d, ch)) = some (d', false) := h
        by_cases hl : 1 < (dom d category pos).length
        · rw [if_pos hl] at h'
          rcases ih _ _ _ h' with ⟨_, h2⟩
          cases h2
        · rw [if_neg hl] at h'
          exact ih _ _ _ h'
      · rw [hf] at h
        exact ih _ _ _ h

theorem rule2Cats_false (p : ZebraPuzzle) :
    ∀ (l : List String) (d : Domains) (ch : Bool) (d' : Domains),
    rule2Cats p l (d, ch) = some (d', false) → d' = d ∧ ch = false := by
  intro l
  induction l with
  | nil =>
    intro d ch d' h
    simp [rule2Cats] at h
    exact ⟨h.1.symm, h.2⟩
  | cons category rest ih =>
    intro d ch d' h
    simp only [rule2Cats] at h
    rcases hmid : rule2Vals p category ((lookupA p.categories category).getD [])
        (d, ch) with _ | ⟨d2, ch2⟩
    · rw [hmid] at h
      simp at h
    · rw [hmid] at h
      simp only at h
      rcases ih _ _ _ h with ⟨he, hc2⟩
      subst hc2
      rcases rule2Vals_false p category _ d ch d2 hmid with ⟨he2, hc⟩
      exact ⟨he.trans he2, hc⟩

theorem passStep_none_of_empty (p : ZebraPuzzle) (d : Domains)
    (h : hasEmpty d = true) : passStep p d = none := by
  unfold passStep
  rw [if_pos h]

theorem passStep_not_empty (p : ZebraPuzzle) (d : Domains) (x : Domains × Bool)
    (h : passStep p d = some x) : hasEmpty d = false := by
  cases hE : hasEmpty d with
  | false => rfl
  | true => rw [passStep_none_of_empty p d hE] at h; cases h

theorem passStep_false (p : ZebraPuzzle) (d d' : Domains)
    (h : passStep p d = some (d', false)) : d' = d := by
  unfold passStep at h
  cases hE : hasEmpty d with
  | true => rw [if_pos hE] at h; cases h
  | false =>
    rw [if_neg (by simp [hE])] at h
    simp only at h
    rcases hr1 : rule1 p d with ⟨e1, c1⟩
    rw [hr1] at h
    rcases hr2 : rule2Cats p (e1.map Prod.fst) (e1, false) with _ | ⟨e2, c2⟩
    · rw [hr2] at h
      cases h
    · rw [hr2] at h
      simp only [Option.some.injEq, Prod.mk.injEq] at h
      rcases h with ⟨he, hc⟩
      have hc1 : c1 = false := by
        cases c1
        · rfl
        · simp at hc
      have hc2 : c2 = false := by
        cases c2
        · rfl
        · simp at hc
      subst hc1
      have h1 : e1 = d := rule1_false p d e1 hr1
      subst hc2
      rcases rule2Cats_false p _ e1 false e2 hr2 with ⟨h2, _⟩
      rw [← he, h2, h1]

/-- Every successful run of the propagation loop ends at a pass that
reports no change on its own output. -/
theorem propLoop_fix (p : ZebraPuzzle) :
    ∀ (fuel : Nat) (d d' : Domains), propLoop p fuel d = some d' →
    passStep p d' = some (d', false) := by
  intro fuel
  induction fuel with
  | zero => intro d d' h; cases h
  | succ n ih =>
    intro d d' h
    simp only [propLoop] at h
    rcases hp : passStep p d with _ | ⟨e, ch⟩
    · rw [hp] at h
      cases h
    · rw [hp] at h
      cases ch with
      | false =>
        simp only [Option.some.injEq] at h
        subst h
        have hd : e = d := passStep_false p d e hp
        rw [hd]
        rw [hd] at hp
        exact hp
      | true => exact ih e d' h

/-! ## Claim C7: propagation is idempotent -/

/-- C7: whenever `_propagate_constraints` returns domains (not the `None`
sentinel), running it again on its own result returns those domains
unchanged — a successful run ends in a fixpoint pass, and the second call
replays exactly that pass. -/
theorem claim_C7_propagation_idempotent (p : ZebraPuzzle) (d d' : Domains)
    (h : propagate p d = some d') : propagate p d' = some d' := by
  have hfix := propLoop_fix p _ d d' h
  unfold propagate
  simp only [propLoop, hfix]

/-- Witness for C7: the initial domains of the one-house puzzle are
already a fixpoint. -/
theorem claim_C7_propagation_idempotent_witness :
    propagate onePuzzle [("color", [(0, ["red"])])] = some [("color", [(0, ["red"])])] :=
  claim_C7_propagation_idempotent onePuzzle [("color", [(0, ["red"])])]
    [("color", [(0, ["red"])])] (by rfl)

/-! ## Claim C9: domain wipeout yields the sentinel and a clean failure -/

/-- C9: a domain map containing an empty domain makes
`_propagate_constraints` return the `None` sentinel (distinct from every
returned domain map — an `Option` cannot be both); a returned domain map
never contains an empty domain; and when initial propagation reports the
sentinel, `solve` returns the explicit no-solution result (the model is a
total function into `Option`, so no exception and no partial assignment
can escape). -/
theorem claim_C9_wipeout_sentinel (p : ZebraPuzzle) (d d' : Domains) :
    (hasEmpty d = true → propagate p d = none) ∧
    (propagate p d = some d' → hasEmpty d' = false) ∧
    (propagate p (initDomains p) = none → solve p = none) := by
  refine ⟨fun h => ?_, fun h => ?_, fun h => ?_⟩
  · unfold propagate
    simp only [propLoop, passStep_none_of_empty p d h]
  · exact passStep_not_empty p d' _ (propLoop_fix p _ d d' h)
  · unfold solve
    rw [h]

/-- Witness for C9: a wiped-out domain map is rejected, a fixpoint result
is wipeout-free, and a puzzle whose initial domains are empty solves to
the no-solution result. -/
theorem claim_C9_wipeout_sentinel_witness :
    propagate onePuzzle [("color", [(0, [])])] = none ∧
    hasEmpty [("color", [(0, ["red"])])] = false ∧
    solve wipePuzzle = none :=
  ⟨(claim_C9_wipeout_sentinel onePuzzle [("color", [(0, [])])] []).1 (by rfl),
   (claim_C9_wipeout_sentinel onePuzzle [("color", [(0, ["red"])])]
      [("color", [(0, ["red"])])]).2.1 (by rfl),
   (claim_C9_wipeout_sentinel wipePuzzle (initDomains wipePuzzle) []).2.2 (by rfl)⟩

/-! ## Behaviour of `_select_unassigned_variable` -/

/-- Any property holding for the incoming best candidate and for every
fresh unassigned candidate of the scanned position list holds for the
result of the inner MRV scan. -/
theorem selectPos_prop (a : Assignment) (d : Domains) (category : String)
    (P : Nat × String × Nat → Prop) :
    ∀ (l : List Nat) (best : Option (Nat × String × Nat)),
    (∀ b, best = some b → P b) →
    (∀ pos, pos ∈ l → isAssigned a category pos = false →
      P ((dom d category pos).length, category, pos)) →
    ∀ r, selectPos a d category l best = some r → P r := by
  intro l
  induction l with
  | nil =>
    intro best hbest _ r hr
    exact hbest r hr
  | cons position rest ih =>
    intro best hbest hnew r hr
    simp only [selectPos] at hr
    by_cases hassigned : isAssigned a category position
    · rw [if_pos hassigned] at hr
      exact ih best hbest (fun pos hp => hnew pos (List.mem_cons_of_mem _ hp)) r hr
    · rw [if_neg hassigned] at hr
      have hP0 : P ((dom d category position).length, category, position) :=
        hnew position (List.mem_cons_self _ _) (by simpa using hassigned)
      cases best with
      | none =>
        exact ih _ (fun b hb => by cases hb; exact hP0)
          (fun pos hp => hnew pos (List.mem_cons_of_mem _ hp)) r hr
      | some b =>
        obtain ⟨m, c, i⟩ := b
        have hr' : (if (dom d category position).length < m then
            selectPos a d category rest
              (some ((dom d category position).length, category, position))
          else selectPos a d category rest (some (m, c, i))) = some r := hr
        by_cases hlt : (dom d category position).length < m
        · rw [if_pos hlt] at hr'
          exact ih _ (fun b hb => by cases hb; exact hP0)
            (fun pos hp => hnew pos (List.mem_cons_of_mem _ hp)) r hr'
        · rw [if_neg hlt] at hr'
          exact ih _ (fun b hb => by cases hb; exact hbest _ rfl)
            (fun pos hp => hnew pos (List.mem_cons_of_mem _ hp)) r hr'

/-- Lifting `selectPos_prop` through the category loop. -/
theorem selectCats_prop (p : ZebraPuzzle) (a : Assignment) (d : Domains)
    (P : Nat × String × Nat → Prop) :
    ∀ (cats : List (String × List String)) (best : Option (Nat × String × Nat)),
    (∀ b, best = some b → P b) →
    (∀ cv pos, cv ∈ cats → pos < p.num_positions →
      isAssigned a cv.1 pos = false → P ((dom d cv.1 pos).length, cv.1, pos)) →
    ∀ r, selectCats p a d cats best = some r → P r := by
  intro cats
  induction cats with
  | nil =>
    intro best hbest _ r hr
    exact hbest r hr
  | cons cv rest ih =>
    intro best hbest hnew r hr
    simp only [selectCats] at hr
    refine ih _ ?_ (fun cw pos hc => hnew cw pos (List.mem_cons_of_mem _ hc)) r hr
    intro b hb
    refine selectPos_prop a d cv.1 P _ best hbest ?_ b hb
    intro pos hp hun
    exact hnew cv pos (List.mem_cons_self _ _) (List.mem_range.mp hp) hun

/-- Starting the inner scan from an existing best candidate always yields
some candidate. -/
theorem selectPos_some_mono (a : Assignment) (d : Domains) (category : String) :
    ∀ (l : List Nat) (b : Nat × String × Nat),
    ∃ r, selectPos a d category l (some b) = some r := by
  intro l
  induction l with
  | nil => intro b; exact ⟨b, rfl⟩
  | cons position rest ih =>
    intro b
    simp only [selectPos]
    by_cases hassigned : isAssigned a category position
    · rw [if_pos hassigned]
      exact ih b
    · rw [if_neg hassigned]
      obtain ⟨m, c, i⟩ := b
      by_cases hlt : (dom d category position).length < m
      · rw [if_pos hlt]
        exact ih _
      · rw [if_neg hlt]
        exact ih _

/-- An unassigned position in the scanned list forces the inner scan to
produce a candidate. -/
theorem selectPos_some_of_unassigned (a : Assignment) (d : Domains)
    (category : String) :
    ∀ (l : List Nat) (best : Option (Nat × String × Nat)) (pos : Nat),
    pos ∈ l → isAssigned a category pos = false →
    ∃ r, selectPos a d category l best = some r := by
  intro l
  induction l with
  | nil =>
    intro best pos hp
    simp at hp
  | cons position rest ih =>
    intro best pos hp hun
    simp only [selectPos]
    by_cases hassigned : isAssigned a category position
    · rw [if_pos hassigned]
      rcases List.mem_cons.mp hp with he | hp'
      · rw [he] at hun
        rw [hun] at hassigned
        cases hassigned
      · exact ih best pos hp' hun
    · rw [if_neg hassigned]
      cases best with
      | none => exact selectPos_some_mono a d category rest _
      | some b =>
        obtain ⟨m, c, i⟩ := b
        show ∃ r, (if (dom d category position).length < m then
            selectPos a d category rest
              (some ((dom d category position).length, category, position))
          else selectPos a d category rest (some (m, c, i))) = some r
        by_cases hlt : (dom d category position).length < m
        · rw [if_pos hlt]
          exact selectPos_some_mono a d category rest _
        · rw [if_neg hlt]
          exact selectPos_some_mono a d category rest _

/-- The category loop keeps an existing candidate alive. -/
theorem selectCats_some_mono (p : ZebraPuzzle) (a : Assignment) (d : Domains) :
    ∀ (cats : List (String × List String)) (b : Nat × String × Nat),
    ∃ r, selectCats p a d cats (some b) = some r := by
  intro cats
  induction cats with
  | nil => intro b; exact ⟨b, rfl⟩
  | cons cv rest ih =>
    intro b
    simp only [selectCats]
    obtain ⟨r, hr⟩ := selectPos_some_mono a d cv.1 (List.range p.num_positions) b
    rw [hr]
    exact ih r

/-- An unassigned `(category, position)` pair among the scanned categories
forces the whole MRV scan to produce a candidate. -/
theorem selectCats_some_of_unassigned (p : ZebraPuzzle) (a : Assignment)
    (d : Domains) :
    ∀ (cats : List (String × List String)) (best : Option (Nat × String × Nat))
      (cv : String × List String) (pos : Nat),
    cv ∈ cats → pos < p.num_positions → isAssigned a cv.1 pos = false →
    ∃ r, selectCats p a d cats best = some r := by
  intro cats
  induction cats with
  | nil =>
    intro best cv pos hc
    simp at hc
  | cons cw rest ih =>
    intro best cv pos hc hpos hun
    simp only [selectCats]
    rcases List.mem_cons.mp hc with he | hc'
    · subst he
      obtain ⟨r, hr⟩ := selectPos_some_of_unassigned a d cv.1
        (List.range p.num_positions) best pos (List.mem_range.mpr hpos) hun
      rw [hr]
      exact selectCats_some_mono p a d rest r
    · cases hmid : selectPos a d cw.1 (List.range p.num_positions) best with
      | none => exact ih _ cv pos hc' hpos hun
      | some r => exact selectCats_some_mono p a d rest r

/-- Fewer entries than positions leaves some position in `[0, n)` without
an entry (pigeonhole over the key list). -/
theorem exists_missing_pos {m : List (Nat × String)} {n : Nat}
    (h : m.length < n) : ∃ pos, pos < n ∧ lookupA m pos = none := by
  by_contra hc
  push_neg at hc
  have hsub : List.range n ⊆ m.map Prod.fst := by
    intro x hx
    rcases Option.ne_none_iff_exists.mp (hc x (List.mem_range.mp hx)) with ⟨v, hv⟩
    exact List.mem_map.mpr ⟨(x, v), lookupA_mem_of_some hv.symm, rfl⟩
  have hle := (List.subperm_of_subset (List.nodup_range n) hsub).length_le
  rw [List.length_range, List.length_map] at hle
  omega

/-! ## Claim C10: variable selection on incomplete assignments -/

/-- C10 is false on the code at `num_positions = 0`: the empty assignment
is incomplete for `zeroPuzzle` (its declared category is missing), the
empty domain map covers all (category, position) pairs vacuously, yet the
MRV scan ranges over no positions and falls through with the absent
sentinel `None` (on which `_backtrack` would then crash unpacking it). -/
theorem claim_C10_cex :
    isComplete zeroPuzzle [] = false ∧ selectUnassigned zeroPuzzle [] [] = none := by
  constructor
  · rfl
  · rfl

/-- C10 amended: additionally assuming `num_positions ≥ 1`, for every
assignment that misses a declared category or holds fewer than
`num_positions` entries for it, and every domain map covering all
`(category, position)` pairs — the original claim's hypothesis, kept here
because on a non-covering map the source raises `KeyError` at
`domains[category][position]` rather than returning a pair —
`_select_unassigned_variable` returns some `(category, position)` pair
that is not yet assigned. -/
theorem claim_C10_amended (p : ZebraPuzzle) (a : Assignment) (d : Domains)
    (hn : 1 ≤ p.num_positions)
    (hcov : ∀ cv ∈ p.categories, ∀ pos, pos < p.num_positions →
      ∃ dm s, lookupA d cv.1 = some dm ∧ lookupA dm pos = some s)
    (hinc : ∃ cv ∈ p.categories, lookupA a cv.1 = none ∨
      ∃ m, lookupA a cv.1 = some m ∧ m.length < p.num_positions) :
    ∃ category position,
      selectUnassigned p a d = some (category, position) ∧
      isAssigned a category position = false := by
  obtain ⟨cv, hcv, hcase⟩ := hinc
  have hvar : ∃ pos, pos < p.num_positions ∧ isAssigned a cv.1 pos = false := by
    rcases hcase with hnone | ⟨m, hm, hlen⟩
    · exact ⟨0, hn, by simp [isAssigned, hnone]⟩
    · obtain ⟨pos, hpos, hlook⟩ := exists_missing_pos hlen
      exact ⟨pos, hpos, by simp [isAssigned, hm, hlook]⟩
  obtain ⟨pos, hpos, hun⟩ := hvar
  obtain ⟨r, hr⟩ := selectCats_some_of_unassigned p a d p.categories none cv pos
    hcv hpos hun
  have hP : isAssigned a r.2.1 r.2.2 = false := by
    refine selectCats_prop p a d (fun b => isAssigned a b.2.1 b.2.2 = false)
      p.categories none (fun b hb => by cases hb) ?_ r hr
    intro cw q _ _ hunq
    exact hunq
  exact ⟨r.2.1, r.2.2, by simp [selectUnassigned, hr], hP⟩

/-- Witness for the amended C10 on the one-house puzzle with the empty
assignment and the full covering domain map of that puzzle. -/
theorem claim_C10_amended_witness :
    ∃ category position,
      selectUnassigned onePuzzle [] [("color", [(0, ["red"])])] =
        some (category, position) ∧
      isAssigned [] category position = false :=
  claim_C10_amended onePuzzle [] [("color", [(0, ["red"])])] (by decide)
    (by
      intro cv hcv pos hpos
      simp only [onePuzzle, List.mem_singleton] at hcv
      subst hcv
      have hp0 : pos = 0 := by
        simp only [onePuzzle] at hpos
        omega
      subst hp0
      exact ⟨[(0, ["red"])], ["red"], rfl, rfl⟩)
    ⟨("color", ["red"]), by simp [onePuzzle], Or.inl (by rfl)⟩

/-! ## Unfolding equations for the search functions -/

theorem tryValues_cons (p : ZebraPuzzle)
    (bt : Assignment → Domains → Option Assignment) (value : String)
    (rest : List String) (a : Assignment) (d : Domains) (category : String)
    (position : Nat) :
    tryValues p bt (value :: rest) a d category position =
      (if isConsistent p (assignSet a category position value) then
        match propagate p (updateDomains p d category position value) with
        | some d' =>
          (match bt (assignSet a category position value) d' with
           | some result => some result
           | none => tryValues p bt rest a d category position)
        | none => tryValues p bt rest a d category position
      else tryValues p bt rest a d category position) := rfl

theorem backtrack_succ (p : ZebraPuzzle) (fuel : Nat) (a : Assignment)
    (d : Domains) :
    backtrack p (fuel + 1) a d =
      (if isComplete p a then some a
       else match selectUnassigned p a d with
       | none => none
       | some (category, position) =>
         tryValues p (fun a2 d2 => backtrack p fuel a2 d2)
           (dom d category position) a d category position) := rfl

/-! ## Every assignment returned by the search passed `_is_consistent` —
except the one `_backtrack` was seeded with, which is returned unchecked
when already complete. -/

theorem tryValues_consistent (p : ZebraPuzzle)
    (bt : Assignment → Domains → Option Assignment)
    (hbt : ∀ a d res, bt a d = some res →
      isConsistent p res = true ∨ (res = a ∧ isComplete p a = true)) :
    ∀ (vs : List String) (a : Assignment) (d : Domains) (category : String)
      (position : Nat) (res : Assignment),
    tryValues p bt vs a d category position = some res →
    isConsistent p res = true := by
  intro vs
  induction vs with
  | nil =>
    intro a d c i res h
    cases h
  | cons v rest ih =>
    intro a d c i res h
    rw [tryValues_cons] at h
    by_cases hcons : isConsistent p (assignSet a c i v) = true
    · rw [if_pos hcons] at h
      rcases hprop : propagate p (updateDomains p d c i v) with _ | d'
      · rw [hprop] at h
        exact ih _ _ _ _ _ h
      · rw [hprop] at h
        have h2 : (match bt (assignSet a c i v) d' with
            | some result => some result
            | none => tryValues p bt rest a d c i) = some res := h
        rcases hbtr : bt (assignSet a c i v) d' with _ | r
        · rw [hbtr] at h2
          exact ih _ _ _ _ _ h2
        · rw [hbtr] at h2
          have h3 : some r = some res := h2
          simp only [Option.some.injEq] at h3
          subst h3
          rcases hbt _ _ _ hbtr with hr | ⟨he, _⟩
          · exact hr
          · rw [he]
            exact hcons
    · rw [if_neg hcons] at h
      exact ih _ _ _ _ _ h

theorem backtrack_consistent (p : ZebraPuzzle) :
    ∀ (fuel : Nat) (a : Assignment) (d : Domains) (res : Assignment),
    backtrack p fuel a d = some res →
    isConsistent p res = true ∨ (res = a ∧ isComplete p a = true) := by
  intro fuel
  induction fuel with
  | zero =>
    intro a d res h
    cases h
  | succ n ih =>
    intro a d res h
    rw [backtrack_succ] at h
    by_cases hcomp : isComplete p a = true
    · rw [if_pos hcomp] at h
      have h2 : some a = some res := h
      simp only [Option.some.injEq] at h2
      subst h2
      exact Or.inr ⟨rfl, hcomp⟩
    · rw [if_neg hcomp] at h
      rcases hsel : selectUnassigned p a d with _ | ⟨cat, pos⟩
      · rw [hsel] at h
        cases h
      · rw [hsel] at h
        exact Or.inl (tryValues_consistent p _ ih _ _ _ _ _ _ h)

/-! ## Claim C2: constraints hold on every returned solution -/

/-- C2 is false on the code for a puzzle with zero declared categories:
the empty assignment is already complete, so the very first `_backtrack`
call returns it without ever running `_is_consistent`, and the registered
always-false constraint is violated by the returned assignment. -/
theorem claim_C2_cex :
    solve noCategoriesPuzzle = some [] ∧
    ∃ c ∈ noCategoriesPuzzle.constraints, c.1 [] = false := by
  refine ⟨by rfl, ⟨(fun _ => false, "always false"), ?_, rfl⟩⟩
  exact List.mem_singleton.mpr rfl

/-- C2 amended: for every puzzle declaring at least one category, every
constraint registered via `add_constraint` evaluates to true on any
assignment returned by `solve` (with a category declared, the initial
empty assignment is incomplete, so the returned assignment is the one that
passed the final `_is_consistent` check). -/
theorem claim_C2_amended (p : ZebraPuzzle) (hne : p.categories ≠ [])
    (res : Assignment) (h : solve p = some res) :
    ∀ c ∈ p.constraints, c.1 res = true := by
  unfold solve at h
  rcases hprop : propagate p (initDomains p) with _ | d
  · rw [hprop] at h
    cases h
  · rw [hprop] at h
    rcases backtrack_consistent p _ _ _ _ h with hc | ⟨hres, hcomp⟩
    · simp only [isConsistent, List.all_eq_true] at hc
      exact hc
    · exfalso
      cases hcat : p.categories with
      | nil => exact hne hcat
      | cons cv rest =>
        simp only [isComplete, hcat, List.all_cons, Bool.and_eq_true] at hcomp
        rcases hcomp with ⟨hcv, -⟩
        simp [lookupA] at hcv

/-- Witness for the amended C2: the first registered clue of the 3-house
example holds on the assignment `solve` returns for it. -/
theorem claim_C2_amended_witness :
    same_position "nationality" "English" "color" "red"
      [("nationality", [(0, "Spanish"), (1, "English"), (2, "Japanese")]),
       ("color", [(0, "ivory"), (1, "red"), (2, "green")]),
       ("pet", [(0, "dog"), (1, "snail"), (2, "fox")]),
       ("drink", [(0, "tea"), (1, "water"), (2, "coffee")])] = true :=
  claim_C2_amended examplePuzzle (by simp [examplePuzzle]) _ (by rfl)
    (same_position "nationality" "English" "color" "red", "English red")
    (List.mem_cons_self _ _)

/-! ## Reading and writing single domains -/

theorem lookupA_append_right {α β : Type} [DecidableEq α] {l : List (α × β)}
    (t : List (α × β)) {k : α} (h : lookupA l k = none) :
    lookupA (l ++ t) k = lookupA t k := by
  induction l with
  | nil => simp
  | cons hd tl ih =>
    by_cases hh : hd.1 = k
    · simp [lookupA, hh] at h
    · simp only [lookupA, hh, if_false] at h
      rw [List.cons_append]
      simp only [lookupA, hh, if_false]
      exact ih h

theorem dom_domSet (d : Domains) (category : String) (position : Nat)
    (s : List String) (c : String) (i : Nat) :
    dom (domSet d category position s) c i =
      if category = c ∧ position = i then s else dom d c i := by
  unfold dom domSet
  by_cases hc : category = c
  · subst hc
    rw [lookupA_dinsert_self]
    simp only [Option.getD_some]
    by_cases hi : position = i
    · subst hi
      rw [lookupA_dinsert_self]
      simp
    · rw [lookupA_dinsert_ne _ _ hi]
      simp [hi]
  · rw [lookupA_dinsert_ne _ _ hc]
    simp [hc]

theorem shrinks_refl (d : Domains) : Shrinks d d :=
  fun _ _ => List.Sublist.refl _

theorem shrinks_trans {e f g : Domains} (h1 : Shrinks e f) (h2 : Shrinks f g) :
    Shrinks e g :=
  fun c i => (h1 c i).trans (h2 c i)

theorem shrinks_domSet (d : Domains) (category : String) (position : Nat)
    {s : List String} (hs : s.Sublist (dom d category position)) :
    Shrinks (domSet d category position s) d := by
  intro c i
  rw [dom_domSet]
  by_cases h : category = c ∧ position = i
  · rw [if_pos h]
    rcases h with ⟨h1, h2⟩
    subst h1
    subst h2
    exact hs
  · rw [if_neg h]

theorem pySet_sublist : ∀ l : List String, (pySet l).Sublist l := by
  intro l
  induction l with
  | nil => simp [pySet]
  | cons v rest ih =>
    simp only [pySet]
    exact List.Sublist.cons₂ v ((List.filter_sublist _).trans ih)

theorem lookupA_mapped {β γ : Type} (f : String × β → γ) :
    ∀ (l : List (String × β)) (cat : String) (vals : β),
    (l.map Prod.fst).Nodup → (cat, vals) ∈ l →
    lookupA (l.map (fun cv => (cv.1, f cv))) cat = some (f (cat, vals)) := by
  intro l
  induction l with
  | nil =>
    intro cat vals _ h
    simp at h
  | cons hd tl ih =>
    intro cat vals hnd hmem
    simp only [List.map_cons, List.nodup_cons] at hnd
    rcases List.mem_cons.mp hmem with he | he
    · subst he
      simp [lookupA]
    · have hk : hd.1 ≠ cat := fun hh =>
        hnd.1 (hh ▸ List.mem_map.mpr ⟨(cat, vals), he, rfl⟩)
      simp only [List.map_cons]
      rw [show lookupA ((hd.1, f hd) :: tl.map (fun cv => (cv.1, f cv))) cat
          = lookupA (tl.map (fun cv => (cv.1, f cv))) cat from by simp [lookupA, hk]]
      exact ih cat vals hnd.2 he

theorem lookupA_range_map {γ : Type} (g : Nat → γ) :
    ∀ (n pos : Nat), lookupA ((List.range n).map (fun i => (i, g i))) pos =
      if pos < n then some (g pos) else none := by
  intro n
  induction n with
  | zero =>
    intro pos
    simp [lookupA]
  | succ k ih =>
    intro pos
    rw [List.range_succ, List.map_append]
    by_cases hp : pos < k
    · have hsome : lookupA ((List.range k).map (fun i => (i, g i))) pos =
          some (g pos) := by
        rw [ih]
        simp [hp]
      rw [lookupA_append_left _ hsome]
      simp [Nat.lt_succ_of_lt hp]
    · have hnone : lookupA ((List.range k).map (fun i => (i, g i))) pos = none := by
        rw [ih]
        simp [hp]
      rw [lookupA_append_right _ hnone]
      by_cases he : pos = k
      · subst he
        simp [lookupA, Nat.lt_succ_self]
      · have hk : k ≠ pos := fun hh => he hh.symm
        have hlt : ¬ pos < k + 1 := by omega
        simp [lookupA, hk, hlt]

theorem dom_initDomains (p : ZebraPuzzle)
    (hnd : (p.categories.map Prod.fst).Nodup)
    {cat : String} {vals : List String} (h : (cat, vals) ∈ p.categories)
    (pos : Nat) :
    dom (initDomains p) cat pos =
      if pos < p.num_positions then pySet vals else [] := by
  unfold dom initDomains
  rw [lookupA_mapped (fun cv => (List.range p.num_positions).map
      (fun pos => (pos, pySet cv.2))) p.categories cat vals hnd h]
  simp only [Option.getD_some]
  rw [lookupA_range_map (fun _ => pySet vals)]
  by_cases hp : pos < p.num_positions <;> simp [hp]

theorem dsub_initDomains (p : ZebraPuzzle)
    (hnd : (p.categories.map Prod.fst).Nodup) : Dsub p (initDomains p) := by
  intro cv hcv pos
  obtain ⟨c1, c2⟩ := cv
  rw [dom_initDomains p hnd hcv pos]
  by_cases hp : pos < p.num_positions
  · rw [if_pos hp]
    exact pySet_sublist c2
  · rw [if_neg hp]
    exact List.nil_sublist _

/-! ## Propagation only shrinks domains -/

theorem removeLoop_shrinks (category value : String) (position : Nat) :
    ∀ (l : List Nat) (d : Domains) (ch : Bool),
    Shrinks (removeLoop category value position l (d, ch)).1 d := by
  intro l
  induction l with
  | nil =>
    intro d ch
    exact shrinks_refl d
  | cons pos rest ih =>
    intro d ch
    simp only [removeLoop]
    by_cases hc : pos ≠ position ∧ value ∈ dom d category pos
    · rw [if_pos hc]
      exact shrinks_trans (ih _ _)
        (shrinks_domSet d category pos (List.erase_sublist _ _))
    · rw [if_neg hc]
      exact ih _ _

theorem rule1One_shrinks (p : ZebraPuzzle) (category : String) (position : Nat)
    (d : Domains) (ch : Bool) :
    Shrinks (rule1One p category position (d, ch)).1 d := by
  unfold rule1One
  cases hd : dom (d, ch).1 category position with
  | nil => exact shrinks_refl d
  | cons v rest =>
    cases rest with
    | nil => exact removeLoop_shrinks category v position _ d ch
    | cons w t => exact shrinks_refl d

theorem rule1Positions_shrinks (p : ZebraPuzzle) (category : String) :
    ∀ (l : List Nat) (d : Domains) (ch : Bool),
    Shrinks (rule1Positions p category l (d, ch)).1 d := by
  intro l
  induction l with
  | nil =>
    intro d ch
    exact shrinks_refl d
  | cons position rest ih =>
    intro d ch
    simp only [rule1Positions]
    rcases hmid : rule1One p category position (d, ch) with ⟨d2, ch2⟩
    have h1 : Shrinks d2 d := by
      have h2 := rule1One_shrinks p category position d ch
      rw [hmid] at h2
      exact h2
    exact shrinks_trans (ih d2 ch2) h1

theorem rule1Cats_shrinks (p : ZebraPuzzle) :
    ∀ (l : List (String × List Nat)) (d : Domains) (ch : Bool),
    Shrinks (rule1Cats p l (d, ch)).1 d := by
  intro l
  induction l with
  | nil =>
    intro d ch
    exact shrinks_refl d
  | cons kv rest ih =>
    intro d ch
    simp only [rule1Cats]
    rcases hmid : rule1Positions p kv.1 kv.2 (d, ch) with ⟨d2, ch2⟩
    have h1 : Shrinks d2 d := by
      have h2 := rule1Positions_shrinks p kv.1 kv.2 d ch
      rw [hmid] at h2
      exact h2
    exact shrinks_trans (ih d2 ch2) h1

theorem rule1_shrinks (p : ZebraPuzzle) (d0 : Domains) :
    Shrinks (rule1 p d0).1 d0 := by
  unfold rule1
  exact rule1Cats_shrinks p _ d0 false

theorem rule2Vals_shrinks (p : ZebraPuzzle) (category : String) :
    ∀ (l : List String) (d : Domains) (ch : Bool) (acc' : Domains × Bool),
    rule2Vals p category l (d, ch) = some acc' → Shrinks acc'.1 d := by
  intro l
  induction l with
  | nil =>
    intro d ch acc' h
    have h2 : some (d, ch) = some acc' := h
    rw [← Option.some.inj h2]
    exact shrinks_refl d
  | cons value rest ih =>
    intro d ch acc' h
    simp only [rule2Vals] at h
    rcases hf : (List.range p.num_positions).filter
        (fun pos => decide (value ∈ dom d category pos)) with _ | ⟨pos, ptail⟩
    · rw [hf] at h
      have h2 : (none : Option (Domains × Bool)) = some acc' := h
      cases h2
    · rcases ptail with _ | ⟨q, qt⟩
      · rw [hf] at h
        have h2 : (if 1 < (dom d category pos).length then
            rule2Vals p category rest (domSet d category pos [value], true)
          else rule2Vals p category rest (d, ch)) = some acc' := h
        by_cases hl : 1 < (dom d category pos).length
        · rw [if_pos hl] at h2
          have hmem : value ∈ dom d category pos := by
            have h3 : pos ∈ (List.range p.num_positions).filter
                (fun pos => decide (value ∈ dom d category pos)) := by
              rw [hf]
              exact List.mem_singleton.mpr rfl
            have h4 := List.of_mem_filter h3
            simpa using h4
          exact shrinks_trans (ih _ _ _ h2)
            (shrinks_domSet d category pos (List.singleton_sublist.mpr hmem))
        · rw [if_neg hl] at h2
          exact ih _ _ _ h2
      · rw [hf] at h
        exact ih _ _ _ h

theorem rule2Cats_shrinks (p : ZebraPuzzle) :
    ∀ (l : List String) (d : Domains) (ch : Bool) (acc' : Domains × Bool),
    rule2Cats p l (d, ch) = some acc' → Shrinks acc'.1 d := by
  intro l
  induction l with
  | nil =>
    intro d ch acc' h
    have h2 : some (d, ch) = some acc' := h
    rw [← Option.some.inj h2]
    exact shrinks_refl d
  | cons category rest ih =>
    intro d ch acc' h
    simp only [rule2Cats] at h
    rcases hmid : rule2Vals p category ((lookupA p.categories category).getD [])
        (d, ch) with _ | ⟨d2, ch2⟩
    · rw [hmid] at h
      have h2 : (none : Option (Domains × Bool)) = some acc' := h
      cases h2
    · rw [hmid] at h
      have h2 : rule2Cats p rest (d2, ch2) = some acc' := h
      exact shrinks_trans (ih _ _ _ h2)
        (rule2Vals_shrinks p category _ d ch (d2, ch2) hmid)

theorem passStep_shrinks (p : ZebraPuzzle) (d : Domains) (acc : Domains × Bool)
    (h : passStep p d = some acc) : Shrinks acc.1 d := by
  unfold passStep at h
  cases hE : hasEmpty d with
  | true =>
    rw [if_pos hE] at h
    cases h
  | false =>
    rw [if_neg (by simp [hE])] at h
    rcases hr1 : rule1 p d with ⟨e1, c1⟩
    rw [hr1] at h
    have h' : (match rule2Cats p (e1.map Prod.fst) (e1, false) with
      | none => none
      | some r2 => some (r2.1, c1 || r2.2)) = some acc := h
    rcases hr2 : rule2Cats p (e1.map Prod.fst) (e1, false) with _ | ⟨e2, c2⟩
    · rw [hr2] at h'
      cases h'
    · rw [hr2] at h'
      have h2 : some (e2, c1 || c2) = some acc := h'
      have h3 := Option.some.inj h2
      have hs1 : Shrinks e1 d := by
        have h4 := rule1_shrinks p d
        rw [hr1] at h4
        exact h4
      have hs2 : Shrinks e2 e1 := rule2Cats_shrinks p _ e1 false (e2, c2) hr2
      rw [← h3]
      exact shrinks_trans hs2 hs1

theorem propLoop_shrinks (p : ZebraPuzzle) :
    ∀ (fuel : Nat) (d d' : Domains), propLoop p fuel d = some d' →
    Shrinks d' d := by
  intro fuel
  induction fuel with
  | zero =>
    intro d d' h
    cases h
  | succ n ih =>
    intro d d' h
    simp only [propLoop] at h
    rcases hp : passStep p d with _ | ⟨e, ch⟩
    · rw [hp] at h
      cases h
    · rw [hp] at h
      cases ch with
      | false =>
        have h2 : some e = some d' := h
        rw [← Option.some.inj h2]
        exact passStep_shrinks p d (e, false) hp
      | true =>
        have h2 : propLoop p n e = some d' := h
        exact shrinks_trans (ih _ _ h2) (passStep_shrinks p d (e, true) hp)

theorem propagate_shrinks (p : ZebraPuzzle) (d d' : Domains)
    (h : propagate p d = some d') : Shrinks d' d :=
  propLoop_shrinks p _ d d' h

/-! ## What `_update_domains` does to each domain -/

theorem dom_discardLoop (category value : String) (position : Nat) :
    ∀ (l : List Nat), l.Nodup → ∀ (d : Domains) (c : String) (i : Nat),
    dom (discardLoop category value position l d) c i =
      if category = c ∧ i ∈ l ∧ i ≠ position then (dom d c i).erase value
      else dom d c i := by
  intro l
  induction l with
  | nil =>
    intro _ d c i
    simp [discardLoop]
  | cons q rest ih =>
    intro hnd d c i
    simp only [List.nodup_cons] at hnd
    simp only [discardLoop]
    rw [ih hnd.2]
    by_cases hA : category = c ∧ i ∈ rest ∧ i ≠ position
    · rw [if_pos hA]
      have hiq : i ≠ q := fun he => hnd.1 (he ▸ hA.2.1)
      have hd1 : dom (if q = position then d
          else domSet d category q ((dom d category q).erase value)) c i
          = dom d c i := by
        by_cases hq : q = position
        · rw [if_pos hq]
        · rw [if_neg hq, dom_domSet]
          rw [if_neg (fun hx => hiq (hx.2.symm))]
      rw [hd1]
      rw [if_pos ⟨hA.1, List.mem_cons_of_mem _ hA.2.1, hA.2.2⟩]
    · rw [if_neg hA]
      by_cases hB : category = c ∧ i = q ∧ q ≠ position
      · rcases hB with ⟨hc, hiq, hqp⟩
        rw [if_neg hqp, dom_domSet]
        rw [if_pos ⟨hc, hiq.symm⟩]
        rw [if_pos ⟨hc, by rw [hiq]; exact List.mem_cons_self _ _,
          by rw [hiq]; exact hqp⟩]
        rw [hc, ← hiq]
      · have hcond : ¬ (category = c ∧ i ∈ q :: rest ∧ i ≠ position) := by
          rintro ⟨hc, hmem, hip⟩
          rcases List.mem_cons.mp hmem with he | he
          · exact hB ⟨hc, he, he ▸ hip⟩
          · exact hA ⟨hc, he, hip⟩
        rw [if_neg hcond]
        by_cases hq : q = position
        · rw [if_pos hq]
        · rw [if_neg hq, dom_domSet]
          rw [if_neg (fun hx : category = c ∧ q = i =>
            hB ⟨hx.1, hx.2.symm, hq⟩)]

theorem dom_updateDomains (p : ZebraPuzzle) (d : Domains) (category : String)
    (position : Nat) (value : String) (c : String) (i : Nat) :
    dom (updateDomains p d category position value) c i =
      if category = c then
        (if i = position then [value]
         else if i < p.num_positions then (dom d c i).erase value
         else dom d c i)
      else dom d c i := by
  unfold updateDomains
  rw [dom_discardLoop category value position (List.range p.num_positions)
      (List.nodup_range p.num_positions)
      (domSet d category position [value]) c i]
  rw [dom_domSet]
  by_cases hc : category = c
  · by_cases hip : i = position
    · rw [if_neg (fun hx : category = c ∧ i ∈ List.range p.num_positions ∧
        i ≠ position => hx.2.2 hip)]
      rw [if_pos ⟨hc, hip.symm⟩]
      rw [if_pos hc, if_pos hip]
    · by_cases hin : i < p.num_positions
      · rw [if_pos ⟨hc, List.mem_range.mpr hin, hip⟩]
        rw [if_neg (fun hx : category = c ∧ position = i => hip hx.2.symm)]
        rw [if_pos hc, if_neg hip, if_pos hin]
      · rw [if_neg (fun hx : category = c ∧ i ∈ List.range p.num_positions ∧
          i ≠ position => hin (List.mem_range.mp hx.2.1))]
        rw [if_neg (fun hx : category = c ∧ position = i => hip hx.2.symm)]
        rw [if_pos hc, if_neg hip, if_neg hin]
  · simp [hc]

theorem updateDomains_shrinks (p : ZebraPuzzle) (d : Domains) (category : String)
    (position : Nat) (value : String) (hv : value ∈ dom d category position) :
    Shrinks (updateDomains p d category position value) d := by
  intro c i
  rw [dom_updateDomains]
  by_cases hc : category = c
  · subst hc
    rw [if_pos rfl]
    by_cases hip : i = position
    · subst hip
      rw [if_pos rfl]
      exact List.singleton_sublist.mpr hv
    · rw [if_neg hip]
      by_cases hin : i < p.num_positions
      · rw [if_pos hin]
        exact List.erase_sublist _ _
      · rw [if_neg hin]
  · rw [if_neg hc]

/-! ## Facts about assignment updates and selection results -/

theorem lookupA_assignSet_self (a : Assignment) (category : String)
    (position : Nat) (value : String) :
    lookupA (assignSet a category position value) category =
      some (dinsert position value ((lookupA a category).getD [])) := by
  unfold assignSet
  exact lookupA_dinsert_self _ _ _

theorem lookupA_assignSet_ne (a : Assignment) {category c : String}
    (position : Nat) (value : String) (h : category ≠ c) :
    lookupA (assignSet a category position value) c = lookupA a c := by
  unfold assignSet
  exact lookupA_dinsert_ne _ _ h

theorem pair_eq_of_nodup {l : List (String × List String)}
    (hnd : (l.map Prod.fst).Nodup) {k : String} {v1 v2 : List String}
    (h1 : (k, v1) ∈ l) (h2 : (k, v2) ∈ l) : v1 = v2 := by
  have e1 := lookupA_of_mem_nodup hnd h1
  have e2 := lookupA_of_mem_nodup hnd h2
  rw [e1] at e2
  exact Option.some.inj e2

theorem isAssigned_false_iff (a : Assignment) (category : String)
    (position : Nat) :
    isAssigned a category position = false ↔
      lookupA ((lookupA a category).getD []) position = none := by
  unfold isAssigned
  cases hc : lookupA a category with
  | none => simp [lookupA]
  | some m =>
    simp only [Option.getD_some]
    cases lookupA m position <;> simp

theorem nodup_append_singleton {α : Type} {l : List α} {x : α}
    (h : l.Nodup) (hx : x ∉ l) : (l ++ [x]).Nodup := by
  rw [List.nodup_append]
  refine ⟨h, List.nodup_singleton x, ?_⟩
  intro y hy hy2
  rw [List.mem_singleton] at hy2
  subst hy2
  exact hx hy

theorem select_found (p : ZebraPuzzle) (a : Assignment) (d : Domains)
    {category : String} {position : Nat}
    (h : selectUnassigned p a d = some (category, position)) :
    (∃ vals, (category, vals) ∈ p.categories) ∧ position < p.num_positions ∧
    lookupA ((lookupA a category).getD []) position = none := by
  unfold selectUnassigned at h
  rcases hsel : selectCats p a d p.categories none with _ | r
  · rw [hsel] at h
    cases h
  · rw [hsel] at h
    have h2 : some (r.2.1, r.2.2) = some (category, position) := h
    have h3 := Option.some.inj h2
    have hP : (∃ vals, (r.2.1, vals) ∈ p.categories) ∧
        r.2.2 < p.num_positions ∧ isAssigned a r.2.1 r.2.2 = false := by
      refine selectCats_prop p a d (fun b => (∃ vals, (b.2.1, vals) ∈ p.categories) ∧
        b.2.2 < p.num_positions ∧ isAssigned a b.2.1 b.2.2 = false)
        p.categories none (fun b hb => by cases hb) ?_ r hsel
      intro cv pos hcv hpos hun
      obtain ⟨x, y⟩ := cv
      exact ⟨⟨y, hcv⟩, hpos, hun⟩
    rw [show r.2.1 = category from congrArg Prod.fst h3,
        show r.2.2 = position from congrArg Prod.snd h3] at hP
    exact ⟨hP.1, hP.2.1, (isAssigned_false_iff a category position).mp hP.2.2⟩

theorem isComplete_spec (p : ZebraPuzzle) (a : Assignment)
    (h : isComplete p a = true) :
    ∀ cv ∈ p.categories, ∃ m, lookupA a cv.1 = some m ∧
      m.length = p.num_positions := by
  intro cv hcv
  unfold isComplete at h
  have h2 := List.all_eq_true.mp h cv hcv
  cases hc : lookupA a cv.1 with
  | none =>
    rw [hc] at h2
    simp at h2
  | some m =>
    rw [hc] at h2
    refine ⟨m, rfl, ?_⟩
    simpa using h2

/-! ## One committed assignment preserves the search invariant -/

theorem step_preserves (p : ZebraPuzzle)
    (hkeys : (p.categories.map Prod.fst).Nodup)
    (hvnd : ∀ cv ∈ p.categories, cv.2.Nodup)
    (a : Assignment) (d : Domains) (hinv : Inv p a d) (hdsub : Dsub p d)
    {category : String} {vals : List String}
    (hcat : (category, vals) ∈ p.categories)
    {position : Nat} (hpos : position < p.num_positions)
    (hun : lookupA ((lookupA a category).getD []) position = none)
    {value : String} (hv : value ∈ dom d category position)
    {d2 : Domains}
    (hprop : propagate p (updateDomains p d category position value) = some d2) :
    Inv p (assignSet a category position value) d2 ∧ Dsub p d2 := by
  have hshr2 : Shrinks d2 (updateDomains p d category position value) :=
    propagate_shrinks p _ _ hprop
  have hshr1 : Shrinks (updateDomains p d category position value) d :=
    updateDomains_shrinks p d category position value hv
  have hshr : Shrinks d2 d := shrinks_trans hshr2 hshr1
  constructor
  · intro cv hcv
    by_cases hceq : cv.1 = category
    · obtain ⟨c1, c2⟩ := cv
      simp only at hceq
      subst hceq
      have hc2 : c2 = vals := pair_eq_of_nodup hkeys hcv hcat
      subst hc2
      have hlook := lookupA_assignSet_self a c1 position value
      have hmnew : dinsert position value ((lookupA a c1).getD []) =
          ((lookupA a c1).getD []) ++ [(position, value)] :=
        dinsert_of_lookup_none _ hun
      obtain ⟨⟨hI1, hI2, hI3, hI4⟩, hI5⟩ := hinv (c1, c2) hcv
      have hvval : value ∈ c2 :=
        ((hdsub (c1, c2) hcv position).subset) hv
      have hvnew : value ∉ ((lookupA a c1).getD []).map Prod.snd :=
        hI5 position hpos hun value hv
      have hpnew : position ∉ ((lookupA a c1).getD []).map Prod.fst :=
        (lookupA_eq_none_iff _ _).mp hun
      rw [hlook, hmnew]
      simp only [Option.getD_some]
      refine ⟨⟨?_, ?_, ?_, ?_⟩, ?_⟩
      · rw [List.map_append]
        exact nodup_append_singleton hI1 hpnew
      · intro k hk
        rw [List.map_append] at hk
        rcases List.mem_append.mp hk with hk | hk
        · exact hI2 k hk
        · rw [List.map_singleton, List.mem_singleton] at hk
          rw [hk]
          exact hpos
      · rw [List.map_append]
        exact nodup_append_singleton hI3 hvnew
      · intro w hw
        rw [List.map_append] at hw
        rcases List.mem_append.mp hw with hw | hw
        · exact hI4 w hw
        · rw [List.map_singleton, List.mem_singleton] at hw
          rw [hw]
          exact hvval
      · intro pos hplt hunew w hw
        have hMnone : lookupA ((lookupA a c1).getD []) pos = none :=
          lookupA_append_none hunew
        have hne : pos ≠ position := by
          intro he
          subst he
          rw [lookupA_append_right _ hun] at hunew
          simp [lookupA] at hunew
        have hwu : w ∈ dom (updateDomains p d c1 position value) c1 pos :=
          (hshr2 c1 pos).subset hw
        rw [dom_updateDomains, if_pos rfl, if_neg hne, if_pos hplt] at hwu
        have hnd : (dom d c1 pos).Nodup :=
          List.Nodup.sublist (hdsub (c1, c2) hcv pos) (hvnd (c1, c2) hcv)
        rw [List.Nodup.mem_erase_iff hnd] at hwu
        have hwold : w ∉ ((lookupA a c1).getD []).map Prod.snd :=
          hI5 pos hplt hMnone w hwu.2
        rw [List.map_append, List.map_singleton]
        intro hmem
        rcases List.mem_append.mp hmem with hm | hm
        · exact hwold hm
        · rw [List.mem_singleton] at hm
          exact hwu.1 hm
    · have hlq : lookupA (assignSet a category position value) cv.1 =
          lookupA a cv.1 :=
        lookupA_assignSet_ne a position value (fun he => hceq he.symm)
      obtain ⟨hA, hI5⟩ := hinv cv hcv
      rw [hlq]
      refine ⟨hA, ?_⟩
      intro pos hplt hunew w hw
      exact hI5 pos hplt hunew w ((hshr cv.1 pos).subset hw)
  · intro cv hcv pos
    exact (hshr cv.1 pos).trans (hdsub cv hcv pos)

/-! ## The search maintains the invariant up to a complete assignment -/

theorem tryValues_ainv (p : ZebraPuzzle)
    (hkeys : (p.categories.map Prod.fst).Nodup)
    (hvnd : ∀ cv ∈ p.categories, cv.2.Nodup)
    (bt : Assignment → Domains → Option Assignment)
    (hbt : ∀ a d res, Inv p a d → Dsub p d → bt a d = some res →
      isComplete p res = true ∧ AInv p res)
    (a : Assignment) (d : Domains) (hinv : Inv p a d) (hdsub : Dsub p d)
    (category : String) (vals : List String)
    (hcat : (category, vals) ∈ p.categories)
    (position : Nat) (hpos : position < p.num_positions)
    (hun : lookupA ((lookupA a category).getD []) position = none) :
    ∀ (vs : List String), (∀ v ∈ vs, v ∈ dom d category position) →
    ∀ res, tryValues p bt vs a d category position = some res →
    isComplete p res = true ∧ AInv p res := by
  intro vs
  induction vs with
  | nil =>
    intro _ res h
    cases h
  | cons v rest ih =>
    intro hsub res h
    rw [tryValues_cons] at h
    by_cases hcons : isConsistent p (assignSet a category position v) = true
    · rw [if_pos hcons] at h
      rcases hprop : propagate p (updateDomains p d category position v) with _ | d'
      · rw [hprop] at h
        exact ih (fun w hw => hsub w (List.mem_cons_of_mem _ hw)) res h
      · rw [hprop] at h
        have h2 : (match bt (assignSet a category position v) d' with
            | some result => some result
            | none => tryValues p bt rest a d category position) = some res := h
        rcases hbtr : bt (assignSet a category position v) d' with _ | r
        · rw [hbtr] at h2
          exact ih (fun w hw => hsub w (List.mem_cons_of_mem _ hw)) res h2
        · rw [hbtr] at h2
          have h3 : some r = some res := h2
          have h4 := Option.some.inj h3
          subst h4
          have hstep := step_preserves p hkeys hvnd a d hinv hdsub hcat hpos hun
            (hsub v (List.mem_cons_self _ _)) hprop
          exact hbt _ _ _ hstep.1 hstep.2 hbtr
    · rw [if_neg hcons] at h
      exact ih (fun w hw => hsub w (List.mem_cons_of_mem _ hw)) res h

theorem backtrack_ainv (p : ZebraPuzzle)
    (hkeys : (p.categories.map Prod.fst).Nodup)
    (hvnd : ∀ cv ∈ p.categories, cv.2.Nodup) :
    ∀ (fuel : Nat) (a : Assignment) (d : Domains) (res : Assignment),
    Inv p a d → Dsub p d → backtrack p fuel a d = some res →
    isComplete p res = true ∧ AInv p res := by
  intro fuel
  induction fuel with
  | zero =>
    intro a d res _ _ h
    cases h
  | succ n ih =>
    intro a d res hinv hdsub h
    rw [backtrack_succ] at h
    by_cases hcomp : isComplete p a = true
    · rw [if_pos hcomp] at h
      have h2 : some a = some res := h
      have h3 := Option.some.inj h2
      subst h3
      exact ⟨hcomp, fun cv hcv => (hinv cv hcv).1⟩
    · rw [if_neg hcomp] at h
      rcases hsel : selectUnassigned p a d with _ | ⟨category, position⟩
      · rw [hsel] at h
        cases h
      · rw [hsel] at h
        obtain ⟨⟨vals, hcat⟩, hpos, hun⟩ := select_found p a d hsel
        exact tryValues_ainv p hkeys hvnd _
          (fun a2 d2 r2 hi hd2 hb => ih a2 d2 r2 hi hd2 hb)
          a d hinv hdsub category vals hcat position hpos hun _
          (fun w hw => hw) res h

/-! ## Claim C1: the returned position→value maps are bijections -/

/-- C1: whenever `solve` returns a solution on a puzzle whose categories
each declare `num_positions` distinct values, every declared category's
returned position→value mapping is a bijection between `[0, num_positions)`
and that category's value list: its keys are a permutation of
`range num_positions` and its values a permutation of the value list. -/
theorem claim_C1_bijection (p : ZebraPuzzle)
    (hkeys : (p.categories.map Prod.fst).Nodup)
    (hvals : ∀ cv ∈ p.categories, cv.2.length = p.num_positions ∧ cv.2.Nodup)
    (res : Assignment) (h : solve p = some res) :
    ∀ cv ∈ p.categories, ∃ m, lookupA res cv.1 = some m ∧
      (m.map Prod.fst).Perm (List.range p.num_positions) ∧
      (m.map Prod.snd).Perm cv.2 := by
  unfold solve at h
  rcases hprop : propagate p (initDomains p) with _ | d1
  · rw [hprop] at h
    cases h
  · rw [hprop] at h
    have hinv0 : Inv p [] d1 := by
      intro cv hcv
      refine ⟨⟨?_, ?_, ?_, ?_⟩, ?_⟩ <;> simp [lookupA]
    have hdsub1 : Dsub p d1 :=
      fun cv hcv pos => (propagate_shrinks p _ _ hprop cv.1 pos).trans
        (dsub_initDomains p hkeys cv hcv pos)
    have hres := backtrack_ainv p hkeys (fun cv hcv => (hvals cv hcv).2)
      _ [] d1 res hinv0 hdsub1 h
    intro cv hcv
    obtain ⟨m, hm, hlen⟩ := isComplete_spec p res hres.1 cv hcv
    have hA := hres.2 cv hcv
    rw [hm] at hA
    simp only [Option.getD_some] at hA
    obtain ⟨hI1, hI2, hI3, hI4⟩ := hA
    refine ⟨m, hm, ?_, ?_⟩
    · refine (List.subperm_of_subset hI1 ?_).perm_of_length_le ?_
      · intro x hx
        exact List.mem_range.mpr (hI2 x hx)
      · rw [List.length_range, List.length_map, hlen]
    · refine (List.subperm_of_subset hI3 ?_).perm_of_length_le ?_
      · intro x hx
        exact hI4 x hx
      · rw [List.length_map, hlen, (hvals cv hcv).1]

/-- Witness for C1 on the one-house puzzle. -/
theorem claim_C1_bijection_witness :
    ∃ m, lookupA [("color", [(0, "red")])] "color" = some m ∧
      (m.map Prod.fst).Perm (List.range 1) ∧ (m.map Prod.snd).Perm ["red"] :=
  claim_C1_bijection onePuzzle (by decide) (by decide) [("color", [(0, "red")])]
    (by rfl) ("color", ["red"]) (by simp [onePuzzle])

end Zebra
